import Mathlib

/-
Verification of the stream-segment network engine (pfdf.segments._segments,
class Segments). The constructor loops, the continuity filter and the removal
routine are shallowly embedded below; machine arrays become Lean lists or
index functions, and the float world coordinates and pixel indices are
abstracted as parameters with decidable equality, since the source only ever
compares them for equality.
-/

namespace Pfdf

/-- Tests whether the first two entries of a list are equal. Mirrors the
source checks of the form rows[0] == rows[1] and cols[0] == cols[1] on a
list of (row, col) pixel pairs. -/
def firstTwoSame {β : Type} [DecidableEq β] : List β → Bool
  | a :: b :: _ => a == b
  | _ => false

/-- Tests whether the last two entries of a list are equal. Mirrors the
source checks of the form rows[-1] == rows[-2] and cols[-1] == cols[-2]. -/
def lastTwoSame {β : Type} [DecidableEq β] (l : List β) : Bool :=
  firstTwoSame l.reverse

/-- Embeds the pixel-index loop of Segments.__init__: each polyline is mapped
to pixels by the transform inverse (abstracted as pix); the split flag is
raised when the segment's own first two pixels agree; when the flag is set
the first pixel is deleted and the flag cleared; the flag is raised for the
next segment when the last two pixels of the (possibly shortened) list agree;
the last pixel is always deleted. -/
def buildIndices {α β : Type} [DecidableEq β] (pix : α → β) :
    List (List α) → Bool → List (List β)
  | [], _ => []
  | seg :: rest, flag =>
    let pxs := seg.map pix
    let flag1 := flag || firstTwoSame pxs
    let pxs1 := if flag1 then pxs.tail else pxs
    pxs1.dropLast :: buildIndices pix rest (lastTwoSame pxs1)

/-- Restates the claim's description of the loop: exactly two deletions per
segment, where the carried flag is computed from the previous segment's raw
pixel list (before its own first-pixel deletion). -/
def specIndices {α β : Type} [DecidableEq β] (pix : α → β) :
    List (List α) → Bool → List (List β)
  | [], _ => []
  | seg :: rest, flag =>
    let raw := seg.map pix
    let cond := firstTwoSame raw || flag
    (if cond then raw.tail else raw).dropLast :: specIndices pix rest (lastTwoSame raw)

/-- Well-formedness of a run of the loop: every polyline has at least two
coordinates (the source indexes rows[0], rows[1], rows[-1], rows[-2]), and a
segment losing its first pixel has at least three (after the deletion the
source still indexes rows[-2]). -/
def okRun {α β : Type} [DecidableEq β] (pix : α → β) : List (List α) → Bool → Bool
  | [], _ => true
  | seg :: rest, flag =>
    decide (2 ≤ seg.length)
      && (!(firstTwoSame (seg.map pix) || flag) || decide (3 ≤ seg.length))
      && okRun pix rest (lastTwoSame (seg.map pix))

theorem firstTwoSame_append {β : Type} [DecidableEq β] (xs ys : List β)
    (h : 2 ≤ xs.length) : firstTwoSame (xs ++ ys) = firstTwoSame xs := by
  rcases xs with _ | ⟨a, _ | ⟨b, rest⟩⟩
  · simp at h
  · simp at h
  · simp [firstTwoSame]

theorem lastTwoSame_tail {β : Type} [DecidableEq β] (l : List β)
    (h : 3 ≤ l.length) : lastTwoSame l.tail = lastTwoSame l := by
  rcases l with _ | ⟨a, _ | ⟨b, _ | ⟨c, rest⟩⟩⟩
  · simp at h
  · simp at h
  · simp at h
  · show lastTwoSame (b :: c :: rest) = lastTwoSame (a :: b :: c :: rest)
    unfold lastTwoSame
    rw [List.reverse_cons (a := a)]
    exact (firstTwoSame_append (b :: c :: rest).reverse [a] (by simp)).symm

theorem buildIndices_eq_spec {α β : Type} [DecidableEq β] (pix : α → β) :
    ∀ (segs : List (List α)) (flag : Bool), okRun pix segs flag = true →
      buildIndices pix segs flag = specIndices pix segs flag := by
  intro segs
  induction segs with
  | nil => intro flag _; rfl
  | cons seg rest ih =>
    intro flag hok
    simp only [okRun, Bool.and_eq_true, Bool.or_eq_true, Bool.not_eq_true',
      decide_eq_true_eq] at hok
    obtain ⟨⟨h2, himp⟩, hrest⟩ := hok
    simp only [buildIndices, specIndices]
    rw [Bool.or_comm flag (firstTwoSame (seg.map pix))]
    refine congrArg₂ _ rfl ?_
    by_cases hcond : (firstTwoSame (seg.map pix) || flag) = true
    · have h3 : 3 ≤ seg.length := by
        cases himp with
        | inl h => rw [hcond] at h; cases h
        | inr h => exact h
      rw [if_pos hcond]
      rw [lastTwoSame_tail (seg.map pix) (by simpa using h3)]
      exact ih (lastTwoSame (seg.map pix)) hrest
    · rw [if_neg hcond]
      exact ih (lastTwoSame (seg.map pix)) hrest

/-- C2: when the constructor builds each segment's pixel-index list from its
polyline coordinates (starting with the split flag cleared), it applies
exactly two deletions per segment: the pixel of the last coordinate is always
dropped, and the first pixel index is dropped when the segment lies
downstream of a split point, signalled either by the segment's own first two
coordinates resolving to the same pixel or by the flag carried forward from
the previous segment whose last two coordinates resolved to the same pixel;
all other polyline pixels are kept in order. -/
theorem pixel_indices_two_deletions {α β : Type} [DecidableEq β] (pix : α → β)
    (segs : List (List α)) (h : okRun pix segs false = true) :
    buildIndices pix segs false = specIndices pix segs false :=
  buildIndices_eq_spec pix segs false h

/-- Witness for C2: a channel of four coordinates whose last two share a
pixel, followed by a downstream piece of three coordinates, run through the
loop with the identity pixel mapping. -/
theorem pixel_indices_two_deletions_witness :
    okRun (fun x : Int => x) [[1, 2, 3, 3], [3, 4, 5]] false = true
      ∧ buildIndices (fun x : Int => x) [[1, 2, 3, 3], [3, 4, 5]] false
        = specIndices (fun x : Int => x) [[1, 2, 3, 3], [3, 4, 5]] false :=
  ⟨by decide,
    pixel_indices_two_deletions (fun x : Int => x) [[1, 2, 3, 3], [3, 4, 5]] (by decide)⟩

/-- State of the connectivity loop of Segments.__init__: the child index of
each segment, the parent index row of each segment, and the inner width of
the parents array. -/
structure ConnState where
  child : Nat → Int
  parents : Nat → List Int
  width : Nat

/-- Indices of the segments whose polyline end coordinate equals segment s's
start coordinate; mirrors np.argwhere(np.equal(start, outlets).all(axis=1)),
which lists the matching indices in increasing order. -/
def parentIdx {α : Type} [DecidableEq α] (starts outlets : List α) (s : Nat) : List Nat :=
  (List.range outlets.length).filter (fun p => outlets.get? p == starts.get? s)

/-- Initial connectivity state: child is all -1 and parents is an n-by-2
array of -1, as built by np.full(size, -1) and np.full((size, 2), -1). -/
def connInit : ConnState :=
  ⟨fun _ => -1, fun _ => List.replicate 2 (-1), 2⟩

/-- Writes xs over the first xs.length slots of a row, mirroring the source
assignment of parents.flatten() into parents[s, 0:parents.size]. -/
def writeFront (xs row : List Int) : List Int :=
  xs ++ row.drop xs.length

/-- One iteration of the connectivity loop at segment s: when there are more
matching parents than the current width, every row gains that many extra -1
columns; the child of every matching parent is set to s; and the matching
parent indices are written over the front of row s. -/
def connStep {α : Type} [DecidableEq α] (starts outlets : List α) (s : Nat)
    (st : ConnState) : ConnState :=
  let ps := parentIdx starts outlets s
  let grown : Nat → List Int :=
    if st.width < ps.length then
      fun i => st.parents i ++ List.replicate (ps.length - st.width) (-1)
    else st.parents
  ⟨fun p => if p ∈ ps then (s : Int) else st.child p,
    fun i => if i = s then writeFront (ps.map Int.ofNat) (grown i) else grown i,
    max st.width ps.length⟩

/-- Runs the connectivity loop over segments 0..m-1. -/
def connAux {α : Type} [DecidableEq α] (starts outlets : List α) : Nat → ConnState
  | 0 => connInit
  | m + 1 => connStep starts outlets m (connAux starts outlets m)

/-- Embeds the whole connectivity loop of Segments.__init__, with one
iteration per segment. -/
def buildConnectivity {α : Type} [DecidableEq α] (starts outlets : List α) : ConnState :=
  connAux starts outlets starts.length

/-- Largest number of matching parents over segments 0..m-1. -/
def maxTribs {α : Type} [DecidableEq α] (starts outlets : List α) : Nat → Nat
  | 0 => 0
  | m + 1 => max (maxTribs starts outlets m) (parentIdx starts outlets m).length

theorem mem_parentIdx {α : Type} [DecidableEq α] (starts outlets : List α) (s p : Nat) :
    p ∈ parentIdx starts outlets s ↔
      p < outlets.length ∧ outlets.get? p = starts.get? s := by
  simp [parentIdx, List.mem_filter, List.mem_range]

theorem parentIdx_mem_lt_starts {α : Type} [DecidableEq α] (starts outlets : List α)
    {s p : Nat} (h : p ∈ parentIdx starts outlets s) : s < starts.length := by
  rw [mem_parentIdx] at h
  obtain ⟨hp, heq⟩ := h
  by_contra hs
  push_neg at hs
  have hnone : outlets.get? p = none := by
    rw [heq, List.get?_eq_none.mpr hs]
  rw [List.get?_eq_none] at hnone
  omega

theorem connAux_width {α : Type} [DecidableEq α] (starts outlets : List α) :
    ∀ m, (connAux starts outlets m).width = max 2 (maxTribs starts outlets m)
  | 0 => rfl
  | m + 1 => by
    show max (connAux starts outlets m).width (parentIdx starts outlets m).length = _
    rw [connAux_width starts outlets m, maxTribs, Nat.max_assoc]

theorem le_maxTribs {α : Type} [DecidableEq α] (starts outlets : List α) :
    ∀ m s, s < m → (parentIdx starts outlets s).length ≤ maxTribs starts outlets m
  | 0, s, h => absurd h (Nat.not_lt_zero s)
  | m + 1, s, h => by
    rw [maxTribs]
    rcases Nat.lt_succ_iff_lt_or_eq.mp h with h' | h'
    · exact le_trans (le_maxTribs starts outlets m s h') (Nat.le_max_left _ _)
    · subst h'; exact Nat.le_max_right _ _

theorem connAux_parents_of_ge {α : Type} [DecidableEq α] (starts outlets : List α) :
    ∀ m s, m ≤ s →
      (connAux starts outlets m).parents s
        = List.replicate (connAux starts outlets m).width (-1)
  | 0, s, _ => rfl
  | m + 1, s, h => by
    have hne : ¬(s = m) := by omega
    show (if s = m then _ else _) = _
    rw [if_neg hne]
    by_cases hgrow :
        (connAux starts outlets m).width < (parentIdx starts outlets m).length
    · show ((if _ < _ then _ else _ : Nat → List Int) s) = _
      rw [if_pos hgrow, connAux_parents_of_ge starts outlets m s (by omega),
        ← List.replicate_add]
      show _ = List.replicate (max _ _) _
      congr 1
      omega
    · show ((if _ < _ then _ else _ : Nat → List Int) s) = _
      rw [if_neg hgrow, connAux_parents_of_ge starts outlets m s (by omega)]
      show _ = List.replicate (max _ _) _
      congr 1
      omega

theorem connAux_parents_of_lt {α : Type} [DecidableEq α] (starts outlets : List α) :
    ∀ m s, s < m →
      (connAux starts outlets m).parents s
        = (parentIdx starts outlets s).map Int.ofNat
          ++ List.replicate
              ((connAux starts outlets m).width - (parentIdx starts outlets s).length)
              (-1)
  | 0, s, h => absurd h (Nat.not_lt_zero s)
  | m + 1, s, h => by
    have hwidth := connAux_width starts outlets m
    rcases Nat.lt_succ_iff_lt_or_eq.mp h with h' | h'
    · have hle : (parentIdx starts outlets s).length ≤ (connAux starts outlets m).width := by
        rw [hwidth]
        exact le_trans (le_maxTribs starts outlets m s h') (Nat.le_max_right _ _)
      have hne : ¬(s = m) := by omega
      show (if s = m then _ else _) = _
      rw [if_neg hne]
      by_cases hgrow :
          (connAux starts outlets m).width < (parentIdx starts outlets m).length
      · show ((if _ < _ then _ else _ : Nat → List Int) s) = _
        rw [if_pos hgrow, connAux_parents_of_lt starts outlets m s h',
          List.append_assoc, ← List.replicate_add]
        show _ = _ ++ List.replicate (max _ _ - _) _
        congr 2
        omega
      · show ((if _ < _ then _ else _ : Nat → List Int) s) = _
        rw [if_neg hgrow, connAux_parents_of_lt starts outlets m s h']
        show _ = _ ++ List.replicate (max _ _ - _) _
        congr 2
        omega
    · subst h'
      show (if s = s then writeFront _ _ else _) = _
      rw [if_pos rfl]
      have hrow := connAux_parents_of_ge starts outlets s s (Nat.le_refl s)
      by_cases hgrow :
          (connAux starts outlets s).width < (parentIdx starts outlets s).length
      · show writeFront _ ((if _ < _ then _ else _ : Nat → List Int) s) = _
        rw [if_pos hgrow, hrow, ← List.replicate_add]
        unfold writeFront
        rw [List.drop_replicate, List.length_map]
        show _ = _ ++ List.replicate (max _ _ - _) _
        congr 2
        omega
      · show writeFront _ ((if _ < _ then _ else _ : Nat → List Int) s) = _
        rw [if_neg hgrow, hrow]
        unfold writeFront
        rw [List.drop_replicate, List.length_map]
        show _ = _ ++ List.replicate (max _ _ - _) _
        congr 2
        omega

theorem connAux_child_of_mem {α : Type} [DecidableEq α] (starts outlets : List α)
    (hinj : ∀ s, s < starts.length → ∀ t, t < starts.length →
      starts.get? s = starts.get? t → s = t) :
    ∀ m p s, s < m → p ∈ parentIdx starts outlets s →
      (connAux starts outlets m).child p = (s : Int)
  | 0, p, s, hs, _ => absurd hs (Nat.not_lt_zero s)
  | m + 1, p, s, hs, hmem => by
    show (if p ∈ parentIdx starts outlets m then ((m : Nat) : Int)
          else (connAux starts outlets m).child p) = (s : Int)
    rcases Nat.lt_succ_iff_lt_or_eq.mp hs with h' | h'
    · have hnot : ¬(p ∈ parentIdx starts outlets m) := by
        intro hm
        have hs' := parentIdx_mem_lt_starts starts outlets hmem
        have hm' := parentIdx_mem_lt_starts starts outlets hm
        have h1 := (mem_parentIdx starts outlets s p).mp hmem
        have h2 := (mem_parentIdx starts outlets m p).mp hm
        have : s = m := hinj s hs' m hm' (h1.2.symm.trans h2.2)
        omega
      rw [if_neg hnot]
      exact connAux_child_of_mem starts outlets hinj m p s h' hmem
    · subst h'
      rw [if_pos hmem]

theorem connAux_mem_of_child {α : Type} [DecidableEq α] (starts outlets : List α) :
    ∀ (m p s : Nat), (connAux starts outlets m).child p = (s : Int) →
      p ∈ parentIdx starts outlets s
  | 0, p, s, h => by
    exfalso
    have h' : (-1 : Int) = (s : Int) := h
    omega
  | m + 1, p, s, h => by
    have hstep : (connAux starts outlets (m + 1)).child p
        = (if p ∈ parentIdx starts outlets m then ((m : Nat) : Int)
            else (connAux starts outlets m).child p) := rfl
    rw [hstep] at h
    by_cases hm : p ∈ parentIdx starts outlets m
    · rw [if_pos hm] at h
      have : m = s := by exact_mod_cast h
      subst this
      exact hm
    · rw [if_neg hm] at h
      exact connAux_mem_of_child starts outlets m p s h

/-- C1: for a network built by the constructor, whose segments have pairwise
distinct start coordinates, the connectivity loop records for every segment s
exactly the parents whose polyline end coordinate equals s's start
coordinate: the final inner width of the parents array is the larger of the
initial width 2 and the largest tributary count; row s holds the matching
parent indices followed by -1 padding up to that width; and a segment p is a
match for s precisely when its child index is set to s. -/
theorem constructor_parents_exact {α : Type} [DecidableEq α] (starts outlets : List α)
    (hlen : outlets.length = starts.length)
    (hinj : ∀ s, s < starts.length → ∀ t, t < starts.length →
      starts.get? s = starts.get? t → s = t) :
    (buildConnectivity starts outlets).width
        = max 2 (maxTribs starts outlets starts.length)
      ∧ (∀ s, s < starts.length →
          (buildConnectivity starts outlets).parents s
            = (parentIdx starts outlets s).map Int.ofNat
              ++ List.replicate
                  ((buildConnectivity starts outlets).width
                    - (parentIdx starts outlets s).length) (-1))
      ∧ (∀ p s, s < starts.length →
          (p ∈ parentIdx starts outlets s
            ↔ (buildConnectivity starts outlets).child p = (s : Int))) := by
  have _ := hlen
  refine ⟨connAux_width starts outlets starts.length, ?_, ?_⟩
  · intro s hs
    exact connAux_parents_of_lt starts outlets starts.length s hs
  · intro p s hs
    constructor
    · intro hmem
      exact connAux_child_of_mem starts outlets hinj starts.length p s hs hmem
    · intro hchild
      exact connAux_mem_of_child starts outlets starts.length p s hchild

/-- Start coordinates of a three-segment Y confluence: two upstream arms and
the downstream segment that begins where both arms end. -/
def yStarts : List (Int × Int) := [(0, 0), (0, 2), (1, 1)]

/-- End coordinates of the three segments of the Y confluence. -/
def yOutlets : List (Int × Int) := [(1, 1), (1, 1), (2, 1)]

/-- Witness for C1: on the Y confluence, arm 0 is recorded as a parent of the
downstream segment 2 exactly because its end coordinate equals segment 2's
start coordinate. -/
theorem constructor_parents_exact_witness :
    0 ∈ parentIdx yStarts yOutlets 2
      ↔ (buildConnectivity yStarts yOutlets).child 0 = (2 : Int) :=
  (constructor_parents_exact yStarts yOutlets (by decide) (by decide)).2.2 0 2
    (by decide)

/-- A stream segment network as stored by the Segments class: the segment
IDs, the child index of each segment (-1 when terminal), and the padded
parent index rows. -/
structure Network where
  ids : List Int
  child : List Int
  parents : List (List Int)

/-- Number of segments in the network (source: Segments.size). -/
def netSize (net : Network) : Nat := net.ids.length

/-- Child index of segment i, read from the child array. -/
def netChild (net : Network) (i : Nat) : Int := net.child.getD i (-1)

/-- Parent index row of segment i, read from the parents array. -/
def netParents (net : Network) (i : Nat) : List Int := net.parents.getD i []

/-- Embeds terminal_ids: isterminal is the test child == -1, and terminal_ids
restricts the ids array to the terminal segments. -/
def terminalIds (net : Network) : List Int :=
  ((List.range (netSize net)).filter (fun i => netChild net i == -1)).map
    (fun i => net.ids.getD i 0)

/-- Embeds Segments._removable for one segment: a requested segment is on the
edge of its local network when it has no child (unless keep_downstream) or no
remaining parents (unless keep_upstream). -/
def edgeSeg (keepUp keepDown : Bool) (c : Int) (row : List Int) : Bool :=
  (!keepDown && (c == -1)) || (!keepUp && row.all (fun e => e == -1))

/-- Modelled from the spec: pfdf.segments._update.family is not in the source
tree. Per the spec (section 4.6), when a segment is removed "the parent/child
tables are relaxed (a removed segment's child loses one parent slot; a
removed segment's parents each lose their child link)", so every table
reference to a removed segment index is replaced by -1. -/
def nullIf (n : Nat) (rem : Nat → Bool) (e : Int) : Int :=
  if 0 ≤ e ∧ e.toNat < n ∧ rem e.toNat = true then -1 else e

/-- Embeds the while loop of Segments.continuous on the remove=true path:
select the requested segments on the edges of their local networks, add them
to the removal set, drop them from the request, relax the working
parent/child tables, and repeat until no requested edge segment remains.
Each productive iteration clears at least one requested segment, so the fuel
supplied by continuousRemove (one more than the segment count) never runs
out. -/
def contLoopF (n : Nat) (keepUp keepDown : Bool) :
    Nat → (Nat → Bool) → (Nat → Bool) → (Nat → Int) → (Nat → List Int) → Nat → Bool
  | 0, _, acc, _, _ => acc
  | fuel + 1, requested, acc, child, parents =>
    let rem := fun i => requested i && edgeSeg keepUp keepDown (child i) (parents i)
    if (List.range n).any rem then
      contLoopF n keepUp keepDown fuel (fun i => requested i && !rem i)
        (fun i => acc i || rem i) (fun i => nullIf n rem (child i))
        (fun i => (parents i).map (nullIf n rem))
    else acc

/-- Embeds Segments.continuous with remove=true: starting from working copies
of the child and parents arrays and an empty removal set, returns the final
removal set for a boolean selection. -/
def continuousRemove (net : Network) (sel : Nat → Bool) (keepUp keepDown : Bool) :
    Nat → Bool :=
  contLoopF (netSize net) keepUp keepDown (netSize net + 1) sel (fun _ => false)
    (netChild net) (netParents net)

/-- Modelled from the spec: pfdf.segments._update.connectivity is not in the
source tree. Per the spec (section 4.6) remove rebuilds the child and parents
arrays, so a reference to a kept segment is renumbered to its position among
the kept segments and a reference to a removed segment becomes -1. -/
def newIndex (n : Nat) (rem : Nat → Bool) (e : Int) : Int :=
  if 0 ≤ e ∧ e.toNat < n ∧ rem e.toNat = false then
    ((List.range e.toNat).countP (fun j => !rem j) : Int)
  else -1

/-- Embeds Segments.remove: restricts the ids array to the kept segments
(source: ids[keep]) and rebuilds the child and parents arrays with the
renumbering above. -/
def removeSegments (net : Network) (rem : Nat → Bool) : Network :=
  let kept := (List.range (netSize net)).filter (fun i => !rem i)
  ⟨kept.map (fun i => net.ids.getD i 0),
    kept.map (fun i => newIndex (netSize net) rem (netChild net i)),
    kept.map (fun i => (netParents net i).map (newIndex (netSize net) rem))⟩

/-- Composition studied by the claim: remove(continuous(sel, remove=true)). -/
def filterContinuous (net : Network) (sel : Nat → Bool) (keepUp keepDown : Bool) :
    Network :=
  removeSegments net (continuousRemove net sel keepUp keepDown)

/-- A two-segment chain 0 -> 1 with IDs 1 and 2, where segment index 1 is the
terminal segment. -/
def chainNet : Network :=
  ⟨[1, 2], [1, -1], [[-1, -1], [0, -1]]⟩

/-- C3 counterexample: on the two-segment chain, selecting the terminal
segment for removal passes the continuity filter (it is on the downstream
edge), and after remove the surviving segment (ID 1) becomes a terminal
segment even though the original terminal IDs were just ID 2; the resulting
terminal IDs are not a subset of the original ones. -/
theorem continuity_terminal_subset_fails :
    (1 : Int) ∈ terminalIds (filterContinuous chainNet (fun i => i == 1) false false)
      ∧ (1 : Int) ∉ terminalIds chainNet := by
  decide

theorem nullIf_none (n : Nat) (e : Int) : nullIf n (fun _ => false) e = e := by
  simp [nullIf]

theorem nullIf_or (n : Nat) (f g : Nat → Bool) (e : Int) :
    nullIf n g (nullIf n f e) = nullIf n (fun i => f i || g i) e := by
  simp only [nullIf, Bool.or_eq_true]
  split_ifs <;> simp_all

/-- A removal set is parent-closed when every segment whose recorded child
has been removed is itself removed. -/
def ParentClosed (n : Nat) (child0 : Nat → Int) (F : Nat → Bool) : Prop :=
  ∀ r, r < n → F r = true → ∀ i, i < n → child0 i = (r : Int) → F i = true

theorem contLoop_closed (n : Nat) (child0 : Nat → Int) (parents0 : Nat → List Int)
    (hcons : ∀ i, i < n → ∀ c, c < n → child0 i = (c : Int) → (i : Int) ∈ parents0 c) :
    ∀ (fuel : Nat) (requested acc : Nat → Bool) (child : Nat → Int)
      (parents : Nat → List Int),
      (∀ i, child i = nullIf n acc (child0 i)) →
      (∀ i, parents i = (parents0 i).map (nullIf n acc)) →
      ParentClosed n child0 acc →
      ParentClosed n child0 (contLoopF n false true fuel requested acc child parents) := by
  intro fuel
  induction fuel with
  | zero =>
    intro requested acc child parents _ _ hacc
    exact hacc
  | succ fuel ih =>
    intro requested acc child parents hch hpar hacc
    show ParentClosed n child0
      (if (List.range n).any
            (fun i => requested i && edgeSeg false true (child i) (parents i))
        then _ else acc)
    by_cases hany : ((List.range n).any
        (fun i => requested i && edgeSeg false true (child i) (parents i))) = true
    · rw [if_pos hany]
      apply ih
      · intro i
        rw [hch i, nullIf_or]
      · intro i
        rw [hpar i, List.map_map,
          show (nullIf n (fun i => requested i
                  && edgeSeg false true (child i) (parents i)) ∘ nullIf n acc)
              = nullIf n (fun j => acc j
                  || (requested j && edgeSeg false true (child j) (parents j)))
            from funext (fun e => nullIf_or n acc _ e)]
      · intro r hr hFr i hi hci
        simp only [Bool.or_eq_true] at hFr
        simp only [Bool.or_eq_true]
        rcases hFr with haccr | hremr
        · exact Or.inl (hacc r hr haccr i hi hci)
        · have hedge : edgeSeg false true (child r) (parents r) = true := by
            rw [Bool.and_eq_true] at hremr
            exact hremr.2
          have hall : (parents r).all (fun e => e == -1) = true := by
            simpa [edgeSeg] using hedge
          have hmem0 : (i : Int) ∈ parents0 r := hcons i hi r hr hci
          have hmem : nullIf n acc (i : Int) ∈ parents r := by
            rw [hpar r]
            exact List.mem_map_of_mem _ hmem0
          have hnull : nullIf n acc (i : Int) = -1 := by
            have := List.all_eq_true.mp hall _ hmem
            exact beq_iff_eq.mp this
          have hai : acc i = true := by
            unfold nullIf at hnull
            by_cases hc : 0 ≤ (i : Int) ∧ (i : Int).toNat < n ∧ acc (i : Int).toNat = true
            · have : (i : Int).toNat = i := Int.toNat_ofNat i
              rw [this] at hc
              exact hc.2.2
            · rw [if_neg hc] at hnull
              omega
          exact Or.inl hai
    · rw [if_neg hany]
      exact hacc

theorem continuousRemove_closed (net : Network) (sel : Nat → Bool)
    (hcons : ∀ i, i < netSize net → ∀ c, c < netSize net →
      netChild net i = (c : Int) → (i : Int) ∈ netParents net c) :
    ParentClosed (netSize net) (netChild net) (continuousRemove net sel false true) := by
  apply contLoop_closed (netSize net) (netChild net) (netParents net) hcons
  · intro i
    exact (nullIf_none (netSize net) (netChild net i)).symm
  · intro i
    rw [show nullIf (netSize net) (fun _ => false) = id
        from funext (fun e => nullIf_none (netSize net) e), List.map_id]
  · intro r _ hFr
    exact absurd hFr (by simp)

theorem newIndex_cases (n : Nat) (rem : Nat → Bool) (e : Int) :
    newIndex n rem e = -1
      ∨ ∃ c : Nat, c < ((List.range n).filter (fun i => !rem i)).length
          ∧ newIndex n rem e = (c : Int) := by
  unfold newIndex
  by_cases h : 0 ≤ e ∧ e.toNat < n ∧ rem e.toNat = false
  · right
    refine ⟨(List.range e.toNat).countP (fun j => !rem j), ?_, by rw [if_pos h]⟩
    rw [← List.countP_eq_length_filter]
    have h1 : (List.range (e.toNat + 1)).countP (fun j => !rem j)
        = (List.range e.toNat).countP (fun j => !rem j) + 1 := by
      rw [List.range_succ, List.countP_append]
      simp [List.countP_cons, h.2.2]
    have h2 : (List.range (e.toNat + 1)).countP (fun j => !rem j)
        ≤ (List.range n).countP (fun j => !rem j) :=
      (List.range_sublist.mpr (by omega)).countP_le _
    omega
  · left
    rw [if_neg h]

theorem getD_map_of_lt {γ δ : Type} (f : γ → δ) (l : List γ) (j : Nat)
    (h : j < l.length) (d : δ) (d' : γ) :
    (l.map f).getD j d = f (l.getD j d') := by
  rw [List.getD_eq_getElem _ _ (by simpa using h), List.getD_eq_getElem _ _ h]
  simp

theorem getD_mem_of_lt {γ : Type} (l : List γ) (j : Nat) (h : j < l.length) (d : γ) :
    l.getD j d ∈ l := by
  rw [List.getD_eq_getElem _ _ h]
  exact List.getElem_mem h

theorem countP_and_not_le (l : List Nat) (q r : Nat → Bool) :
    l.countP (fun i => q i && !r i) ≤ l.countP q := by
  induction l with
  | nil => simp
  | cons b t ih =>
    cases hq : q b <;> cases hr : r b <;> simp [List.countP_cons, hq, hr] <;> omega

theorem countP_and_not_lt (l : List Nat) (q r : Nat → Bool)
    (a : Nat) (ha : a ∈ l) (hra : r a = true) (hqa : q a = true) :
    l.countP (fun i => q i && !r i) < l.countP q := by
  induction l with
  | nil => cases ha
  | cons b t ih =>
    have hle := countP_and_not_le t q r
    rcases List.mem_cons.mp ha with hb | ht
    · subst hb
      simp [List.countP_cons, hra, hqa]
      omega
    · have hlt := ih ht
      cases hq : q b <;> cases hr : r b <;> simp [List.countP_cons, hq, hr] <;> omega

/-- The while loop is insensitive to the fuel bound as soon as the fuel
exceeds the number of requested segments: each productive iteration clears at
least one requested segment, so the loop reaches its fixed point first. -/
theorem contLoopF_fuel_stable (n : Nat) (kU kD : Bool) :
    ∀ (f g : Nat) (requested acc : Nat → Bool) (child : Nat → Int)
      (parents : Nat → List Int),
      (List.range n).countP requested < f →
      (List.range n).countP requested < g →
      contLoopF n kU kD f requested acc child parents
        = contLoopF n kU kD g requested acc child parents := by
  intro f
  induction f with
  | zero =>
    intro g requested acc child parents hf _
    omega
  | succ f ih =>
    intro g requested acc child parents hf hg
    match g, hg with
    | g + 1, hg =>
      show (if (List.range n).any
              (fun i => requested i && edgeSeg kU kD (child i) (parents i))
            then _ else acc)
          = (if (List.range n).any
              (fun i => requested i && edgeSeg kU kD (child i) (parents i))
            then _ else acc)
      by_cases hany : ((List.range n).any
          (fun i => requested i && edgeSeg kU kD (child i) (parents i))) = true
      · rw [if_pos hany, if_pos hany]
        rw [List.any_eq_true] at hany
        obtain ⟨a, hal, hra⟩ := hany
        have hqa : requested a = true := by
          rw [Bool.and_eq_true] at hra
          exact hra.1
        have hdec := countP_and_not_lt (List.range n) requested
          (fun i => requested i && edgeSeg kU kD (child i) (parents i)) a hal hra hqa
        exact ih g _ _ _ _ (by omega) (by omega)
      · rw [if_neg hany, if_neg hany]

/-- The fuel supplied by continuousRemove is adequate: any larger fuel gives
the same removal set, so the embedded loop agrees with the unbounded while
loop of the source. -/
theorem continuousRemove_fuel_adequate (net : Network) (sel : Nat → Bool)
    (keepUp keepDown : Bool) (fuel : Nat) (h : netSize net < fuel) :
    contLoopF (netSize net) keepUp keepDown fuel sel (fun _ => false)
        (netChild net) (netParents net)
      = continuousRemove net sel keepUp keepDown := by
  apply contLoopF_fuel_stable
  · have := List.countP_le_length sel (l := List.range (netSize net))
    rw [List.length_range] at this
    omega
  · have := List.countP_le_length sel (l := List.range (netSize net))
    rw [List.length_range] at this
    omega

/-- C3 (amended): for every network whose parent/child tables are consistent
and whose child indices are in range, and for every selection sel, after
calling remove(continuous(sel, remove=true, keep_downstream=true)) every
remaining segment's recorded parent and child references (when present)
refer to segments that exist in the resulting network, and the set of
terminal segment IDs of the resulting network is a subset of the terminal
segment IDs of the original network. (As stated, with the default
keep_downstream=false, the claim fails: see the counterexample.) -/
theorem continuity_preserved_keep_downstream (net : Network) (sel : Nat → Bool)
    (hrange : ∀ i, i < netSize net →
      -1 ≤ netChild net i ∧ netChild net i < (netSize net : Int))
    (hcons : ∀ i, i < netSize net → ∀ c, c < netSize net →
      netChild net i = (c : Int) → (i : Int) ∈ netParents net c) :
    (∀ j, j < netSize (filterContinuous net sel false true) →
        netChild (filterContinuous net sel false true) j = -1
          ∨ ∃ c, c < netSize (filterContinuous net sel false true)
              ∧ netChild (filterContinuous net sel false true) j = (c : Int))
      ∧ (∀ j, j < netSize (filterContinuous net sel false true) →
          ∀ e, e ∈ netParents (filterContinuous net sel false true) j →
            e = -1 ∨ ∃ c, c < netSize (filterContinuous net sel false true)
                ∧ e = (c : Int))
      ∧ (∀ x, x ∈ terminalIds (filterContinuous net sel false true) →
          x ∈ terminalIds net) := by
  have hclosed := continuousRemove_closed net sel hcons
  set n := netSize net with hn
  set R := continuousRemove net sel false true with hRdef
  have hids : (filterContinuous net sel false true).ids
      = ((List.range n).filter (fun i => !R i)).map (fun i => net.ids.getD i 0) := rfl
  have hchild : (filterContinuous net sel false true).child
      = ((List.range n).filter (fun i => !R i)).map
          (fun i => newIndex n R (netChild net i)) := rfl
  have hpars : (filterContinuous net sel false true).parents
      = ((List.range n).filter (fun i => !R i)).map
          (fun i => (netParents net i).map (newIndex n R)) := rfl
  set kept := (List.range n).filter (fun i => !R i) with hkept
  have hsize : netSize (filterContinuous net sel false true) = kept.length := by
    rw [netSize, hids, List.length_map]
  have hkeptFacts : ∀ j, j < kept.length →
      kept.getD j 0 < n ∧ R (kept.getD j 0) = false := by
    intro j hj
    have hmem : kept.getD j 0 ∈ kept := getD_mem_of_lt kept j hj 0
    rw [hkept, List.mem_filter, List.mem_range] at hmem
    exact ⟨hmem.1, by simpa using hmem.2⟩
  have hchildAt : ∀ j, j < kept.length →
      netChild (filterContinuous net sel false true) j
        = newIndex n R (netChild net (kept.getD j 0)) := by
    intro j hj
    simp only [netChild]
    rw [hchild]
    exact getD_map_of_lt _ kept j hj (-1) 0
  refine ⟨?_, ?_, ?_⟩
  · intro j hj
    rw [hsize] at hj
    rw [hsize, hchildAt j hj]
    rcases newIndex_cases n R (netChild net (kept.getD j 0)) with h | ⟨c, hc, hcex⟩
    · exact Or.inl h
    · exact Or.inr ⟨c, by rwa [← hkept] at hc, hcex⟩
  · intro j hj e he
    rw [hsize] at hj
    rw [hsize]
    have hrow : netParents (filterContinuous net sel false true) j
        = (netParents net (kept.getD j 0)).map (newIndex n R) := by
      simp only [netParents]
      rw [hpars]
      exact getD_map_of_lt _ kept j hj [] 0
    rw [hrow] at he
    rcases List.mem_map.mp he with ⟨e0, _, he0⟩
    rcases newIndex_cases n R e0 with h | ⟨c, hc, hcex⟩
    · exact Or.inl (he0 ▸ h)
    · exact Or.inr ⟨c, by rwa [← hkept] at hc, he0 ▸ hcex⟩
  · intro x hx
    simp only [terminalIds] at hx ⊢
    rw [hsize, hids] at hx
    rcases List.mem_map.mp hx with ⟨j, hjf, hjx⟩
    rw [List.mem_filter, List.mem_range] at hjf
    obtain ⟨hjlt, hjterm⟩ := hjf
    obtain ⟨hin, hRi⟩ := hkeptFacts j hjlt
    have hterm : newIndex n R (netChild net (kept.getD j 0)) = -1 := by
      rw [← hchildAt j hjlt]
      exact beq_iff_eq.mp hjterm
    have hc0 : netChild net (kept.getD j 0) = -1 := by
      by_contra hne
      obtain ⟨hge, hlt⟩ := hrange (kept.getD j 0) hin
      have hge0 : 0 ≤ netChild net (kept.getD j 0) := by omega
      have htn : (netChild net (kept.getD j 0)).toNat < n := by omega
      have hRc : R (netChild net (kept.getD j 0)).toNat = true := by
        by_contra hRc
        rw [Bool.not_eq_true] at hRc
        unfold newIndex at hterm
        rw [if_pos ⟨hge0, htn, hRc⟩] at hterm
        omega
      have hci : netChild net (kept.getD j 0)
          = (((netChild net (kept.getD j 0)).toNat : Nat) : Int) :=
        (Int.toNat_of_nonneg hge0).symm
      have hfin := hclosed (netChild net (kept.getD j 0)).toNat htn hRc
        (kept.getD j 0) hin hci
      rw [hfin] at hRi
      cases hRi
    have hxval : x = net.ids.getD (kept.getD j 0) 0 := by
      rw [← hjx]
      exact getD_map_of_lt (fun i => net.ids.getD i 0) kept j hjlt 0 0
    rw [hxval]
    apply List.mem_map_of_mem
    rw [List.mem_filter, List.mem_range]
    refine ⟨hin, ?_⟩
    show (netChild net (kept.getD j 0) == -1) = true
    exact beq_iff_eq.mpr hc0

/-- A selection on the two-segment chain requesting the headwater segment. -/
def headSel : Nat → Bool := fun i => i == 0

/-- Witness for the amended C3: on the two-segment chain, removing the
headwater with keep_downstream=true leaves the original terminal (ID 2) as
the only terminal of the result, and the theorem places it among the
original terminal IDs. -/
theorem continuity_preserved_keep_downstream_witness :
    (2 : Int) ∈ terminalIds chainNet :=
  (continuity_preserved_keep_downstream chainNet headSel (by decide) (by decide)).2.2 2
    (by decide)

end Pfdf
